import Mathlib

set_option maxHeartbeats 1000000

/-! Verification of the ascii-maker glyph-grid conversion core.

The definitions below are a shallow embedding of the per-frame conversion
pipeline of `src/main.ts` (class `YouTubeToAsciiConverter`, color path) and
`src/unnamed/part_001` (edge-detection path).  JS numbers are modeled by
`ℚ` where the computation is rational and by `ℝ` where `Math.sqrt` occurs;
JS non-finite results (`NaN`, `Infinity`) are modeled by `Option` with
`none` for a non-finite value. -/

/-- RGB pixel: red, green, blue channels, 0–255 in source rasters. -/
abbrev RGB : Type := ℕ × ℕ × ℕ

/-- A raster image: `width`, `height` and row-major pixel data, mirroring
the `canvas` `ImageData` consumed by `imageToAsciiWithColor`
(src/main.ts:235-327) and `imageToAscii` (src/unnamed/part_001:190-292). -/
structure Img : Type where
  width : ℕ
  height : ℕ
  data : List (List RGB)

/-- Pixel read `pixels[(y*width+x)*4 ..]`; source loops keep the access
in bounds, so the default is never reached there. -/
def Img.pixel (img : Img) (x y : ℕ) : RGB :=
  (img.data.getD y []).getD x (0, 0, 0)

/-- A uniform raster: every pixel the same color. -/
def uniformImg (w h : ℕ) (c : RGB) : Img :=
  ⟨w, h, List.replicate h (List.replicate w c)⟩

/-- ITU-R luma `0.299·r + 0.587·g + 0.114·b`
(src/main.ts:287, src/unnamed/part_001:220). -/
def lum {α : Type} [LinearOrderedField α] (p : RGB) : α :=
  299 / 1000 * (p.1 : α) + 587 / 1000 * (p.2.1 : α) + 114 / 1000 * (p.2.2 : α)

/-- A pixel is "extreme" when it is pure black or pure white: the negation
of the test at src/main.ts:289-297 (same at src/unnamed/part_001:258-266). -/
def extremePx (p : RGB) : Bool :=
  (p.1 == 0 && p.2.1 == 0 && p.2.2 == 0) || (p.1 == 255 && p.2.1 == 255 && p.2.2 == 255)

/-- Sampling step `Math.floor(srcDim / outDim)`
(src/main.ts:250-251, src/unnamed/part_001:205-206). -/
def stepOf (srcDim outDim : ℕ) : ℕ := srcDim / outDim

/-- The source coordinates sampled for one output cell: the double loop
`for (sy = 0; sy < stepY && pixelY + sy < height; sy++)` ×
`for (sx = 0; sx < stepX && pixelX + sx < width; sx++)`
(src/main.ts:275-276, src/unnamed/part_001:247-248); the two loop guards
together mean `sy < min stepY (height - py)` and likewise for `sx`. -/
def sampleCoords (w h stepX stepY px py : ℕ) : List (ℕ × ℕ) :=
  ((List.range (min stepY (h - py))).map (fun sy =>
    (List.range (min stepX (w - px))).map (fun sx => (px + sx, py + sy)))).flatten

/-- The pixels of the block sampled for output cell `(x, y)`. -/
def cellBlock (img : Img) (outW outH x y : ℕ) : List RGB :=
  (sampleCoords img.width img.height (stepOf img.width outW) (stepOf img.height outH)
    (x * stepOf img.width outW) (y * stepOf img.height outH)).map
    (fun c => img.pixel c.1 c.2)

/-- `pixelCount` accumulated by the sampling loop. -/
def cellCount (img : Img) (outW outH x y : ℕ) : ℕ :=
  (cellBlock img outW outH x y).length

/-- Mean luminance of the block:
`brightness = pixelCount > 0 ? brightness / pixelCount : 0`
(src/main.ts:303, src/unnamed/part_001:273). -/
def cellBright {α : Type} [LinearOrderedField α] (img : Img) (outW outH x y : ℕ) : α :=
  if 0 < cellCount img outW outH x y then
    ((cellBlock img outW outH x y).map lum).sum / (cellCount img outW outH x y : α)
  else 0

/-- `isExtreme`: starts `true`, cleared by any non-extreme sampled pixel
(src/main.ts:269, 289-297). -/
def cellExtreme (img : Img) (outW outH x y : ℕ) : Bool :=
  (cellBlock img outW outH x y).all extremePx

/-- JS `Math.round` on a nonnegative rational: `⌊q + 1/2⌋`. -/
def jsRound (q : ℚ) : ℤ := ⌊q + 1 / 2⌋

/-- Averaged block color `Math.round(total / pixelCount)` per channel
(src/main.ts:305-310).  For an empty block JS divides `0/0` and records
`NaN`, modeled by `none`; the source's valid configurations never hit it. -/
def cellColor (img : Img) (outW outH x y : ℕ) : Option (ℤ × ℤ × ℤ) :=
  if 0 < cellCount img outW outH x y then
    some (jsRound (((cellBlock img outW outH x y).map (fun p => (p.1 : ℚ))).sum /
            (cellCount img outW outH x y : ℚ)),
          jsRound (((cellBlock img outW outH x y).map (fun p => (p.2.1 : ℚ))).sum /
            (cellCount img outW outH x y : ℚ)),
          jsRound (((cellBlock img outW outH x y).map (fun p => (p.2.2 : ℚ))).sum /
            (cellCount img outW outH x y : ℚ)))
  else none

/-- Brightness-only glyph index
`Math.floor((brightness / 255) * (charSet.length - 2)) + 1`
(src/main.ts:319-321). -/
def charIndexBright {α : Type} [LinearOrderedField α] [FloorRing α] (len : ℕ) (b : α) : ℤ :=
  ⌊b / 255 * ((len : α) - 2)⌋ + 1

/-- Edge-combined glyph index: `combined = (edge*0.7 + brightness*0.3)/255`,
`Math.floor(combined * (charSet.length - 3)) + 1`
(src/unnamed/part_001:282-286). -/
def charIndexEdge {α : Type} [LinearOrderedField α] [FloorRing α] (len : ℕ) (e b : α) : ℤ :=
  ⌊(e * (7 / 10) + b * (3 / 10)) / 255 * ((len : α) - 3)⌋ + 1

/-- JS string indexing `charSet[i]`: `undefined` (here `none`) outside
`[0, length)`. -/
def strIndex (cs : List Char) (i : ℤ) : Option Char :=
  if 0 ≤ i ∧ i < (cs.length : ℤ) then some (cs.getD i.toNat ' ') else none

/-- The glyph of one cell in the color path (src/main.ts:312-322):
suppression first (`isExtreme || brightness < 5 || brightness > 250` gives
the blank glyph), otherwise the brightness-indexed character. -/
def cellGlyphColor (cs : List Char) (img : Img) (outW outH x y : ℕ) : Option Char :=
  if cellExtreme img outW outH x y = true ∨ (cellBright img outW outH x y : ℚ) < 5 ∨
      250 < (cellBright img outW outH x y : ℚ) then some ' '
  else strIndex cs (charIndexBright cs.length (cellBright img outW outH x y : ℚ))

/-- `imageToAsciiWithColor` (src/main.ts:235-327): the glyph grid and the
color grid, `outH` rows × `outW` columns. -/
def imageToAsciiWithColor (cs : List Char) (img : Img) (outW outH : ℕ) :
    List (List (Option Char)) × List (List (Option (ℤ × ℤ × ℤ))) :=
  ((List.range outH).map (fun y => (List.range outW).map (fun x =>
      cellGlyphColor cs img outW outH x y)),
   (List.range outH).map (fun y => (List.range outW).map (fun x =>
      cellColor img outW outH x y)))

/-- Output-grid dimension logic of `convertImageToAscii`
(src/main.ts:336-347, src/unnamed/part_001:148-161).  The JS float aspect
ratio `image.width / image.height` is modeled as the exact rational. -/
def computeDims (preserveAR : Bool) (imgW imgH : ℕ) (outW outH : ℤ) : ℤ × ℤ :=
  if preserveAR then
    let asp : ℚ := (imgW : ℚ) / (imgH : ℚ)
    let h0 : ℤ := ⌊(outW : ℚ) / asp / 2⌋
    if outH < h0 then (⌊(outH : ℚ) * asp * 2⌋, outH) else (outW, h0)
  else (outW, outH)

/-- Helper: a `height × width` field built from an entry function, the
shape of every loop-built 2-D array in the source. -/
def mkField {α : Type} (h w : ℕ) (F : ℕ → ℕ → α) : List (List α) :=
  (List.range h).map (fun y => (List.range w).map (fun x => F y x))

/-- Entry read `field[y][x]` with the out-of-bounds default 0; source
loops keep accesses in bounds. -/
def get2 {α : Type} [Zero α] (f : List (List α)) (y x : ℕ) : α :=
  (f.getD y []).getD x 0

/-- `grayscale[y][x] = 0.299 r + 0.587 g + 0.114 b`
(src/unnamed/part_001:208-222). -/
noncomputable def grayscaleField (img : Img) : List (List ℝ) :=
  mkField img.height img.width (fun y x => lum (img.pixel x y))

/-- The 5×5 Gaussian kernel weights (src/unnamed/part_001:295-301). -/
def gaussKernel : ℕ → ℕ → ℕ
  | 0, 0 => 1 | 0, 1 => 4 | 0, 2 => 6 | 0, 3 => 4 | 0, 4 => 1
  | 1, 0 => 4 | 1, 1 => 16 | 1, 2 => 24 | 1, 3 => 16 | 1, 4 => 4
  | 2, 0 => 6 | 2, 1 => 24 | 2, 2 => 36 | 2, 3 => 24 | 2, 4 => 6
  | 3, 0 => 4 | 3, 1 => 16 | 3, 2 => 24 | 3, 3 => 16 | 3, 4 => 4
  | 4, 0 => 1 | 4, 1 => 4 | 4, 2 => 6 | 4, 3 => 4 | 4, 4 => 1
  | _, _ => 0

/-- `gaussianBlur` (src/unnamed/part_001:294-321): the result array starts
all zero and only positions `2 ≤ y < height-2`, `2 ≤ x < width-2` receive
the normalized 5×5 convolution (`y < height-2` is written `y+2 < height`).
Taps index `data[y+ky-2][x+kx-2]`, exact here since `y, x ≥ 2`. -/
def gaussianBlur {α : Type} [LinearOrderedField α] (data : List (List α)) : List (List α) :=
  mkField data.length (data.headD []).length (fun y x =>
    if 2 ≤ y ∧ y + 2 < data.length ∧ 2 ≤ x ∧ x + 2 < (data.headD []).length then
      (∑ ky ∈ Finset.range 5, ∑ kx ∈ Finset.range 5,
        get2 data (y + ky - 2) (x + kx - 2) * (gaussKernel ky kx : α)) / 256
    else 0)

/-- Sobel x-kernel `[[-1,0,1],[-2,0,2],[-1,0,1]]` (src/unnamed/part_001:331). -/
def sobelXk : ℕ → ℕ → ℤ
  | 0, 0 => -1 | 0, 2 => 1
  | 1, 0 => -2 | 1, 2 => 2
  | 2, 0 => -1 | 2, 2 => 1
  | _, _ => 0

/-- Sobel y-kernel `[[-1,-2,-1],[0,0,0],[1,2,1]]` (src/unnamed/part_001:336). -/
def sobelYk : ℕ → ℕ → ℤ
  | 0, 0 => -1 | 0, 1 => -2 | 0, 2 => -1
  | 2, 0 => 1 | 2, 1 => 2 | 2, 2 => 1
  | _, _ => 0

/-- Horizontal gradient at `(y, x)` (src/unnamed/part_001:345-354). -/
noncomputable def sobelGx (data : List (List ℝ)) (y x : ℕ) : ℝ :=
  ∑ ky ∈ Finset.range 3, ∑ kx ∈ Finset.range 3,
    get2 data (y + ky - 1) (x + kx - 1) * (sobelXk ky kx : ℝ)

/-- Vertical gradient at `(y, x)` (src/unnamed/part_001:345-354). -/
noncomputable def sobelGy (data : List (List ℝ)) (y x : ℕ) : ℝ :=
  ∑ ky ∈ Finset.range 3, ∑ kx ∈ Finset.range 3,
    get2 data (y + ky - 1) (x + kx - 1) * (sobelYk ky kx : ℝ)

/-- The gradient-magnitude pass of `cannyEdgeDetection`
(src/unnamed/part_001:342-360): `sqrt(gx² + gy²)` on the 1-pixel-inset
interior, 0 on the border. -/
noncomputable def sobelMagField (data : List (List ℝ)) : List (List ℝ) :=
  mkField data.length (data.headD []).length (fun y x =>
    if 1 ≤ y ∧ y + 1 < data.length ∧ 1 ≤ x ∧ x + 1 < (data.headD []).length then
      Real.sqrt (sobelGx data y x ^ 2 + sobelGy data y x ^ 2)
    else 0)

/-- `Math.max(...result.map(row => Math.max(...row)))`: the fold starts at
0, which agrees with JS on every magnitude field (entries are nonnegative
and the zeroed border is present whenever the field is nonempty). -/
def maxOfField {α : Type} [LinearOrder α] (f : List (List α)) (init : α) : α :=
  f.foldl (fun a row => row.foldl max a) init

/-- JS division, `none` for the non-finite results `x / 0` (`NaN` or `±∞`). -/
def jsDiv {α : Type} [DivisionRing α] [DecidableEq α] (a b : α) : Option α :=
  if b = 0 then none else some (a / b)

/-- The normalization pass of `cannyEdgeDetection`
(src/unnamed/part_001:362-368): every entry becomes
`(entry / maxMagnitude) * 255`, with no guard against a zero maximum. -/
def normalizeField {α : Type} [LinearOrderedField α] [DecidableEq α]
    (f : List (List α)) : List (List (Option α)) :=
  f.map (fun row => row.map (fun v => (jsDiv v (maxOfField f 0)).map (fun q => q * 255)))

/-- `cannyEdgeDetection` (src/unnamed/part_001:323-371): Sobel magnitudes
then global normalization. -/
noncomputable def cannyEdgeDetection (data : List (List ℝ)) : List (List (Option ℝ)) :=
  normalizeField (sobelMagField data)

/-- The edge field consumed by `imageToAscii` (src/unnamed/part_001:224-228):
grayscale, Gaussian blur, then Canny. -/
noncomputable def edgeFieldOf (img : Img) : List (List (Option ℝ)) :=
  cannyEdgeDetection (gaussianBlur (grayscaleField img))

/-- Entry read on the normalized edge field; out of bounds is JS
`undefined`, which poisons arithmetic like `NaN`, hence `none`. -/
def get2opt (f : List (List (Option ℝ))) (y x : ℕ) : Option ℝ :=
  (f.getD y []).getD x none

/-- JS `+` with `NaN`/`undefined` absorption. -/
def jsAdd : Option ℝ → Option ℝ → Option ℝ
  | some a, some b => some (a + b)
  | _, _ => none

/-- `edgeStrength` accumulated over the sampled block
(src/unnamed/part_001:241-272): sum of edge-field entries, then
`pixelCount > 0 ? edgeStrength / pixelCount : 0`. -/
noncomputable def cellEdge (img : Img) (outW outH x y : ℕ) : Option ℝ :=
  let raw := (sampleCoords img.width img.height (stepOf img.width outW)
      (stepOf img.height outH) (x * stepOf img.width outW)
      (y * stepOf img.height outH)).foldl
    (fun a c => jsAdd a (get2opt (edgeFieldOf img) c.2 c.1)) (some 0)
  if 0 < cellCount img outW outH x y then
    raw.map (fun e => e / (cellCount img outW outH x y : ℝ))
  else some 0

/-- The glyph of one cell in the edge path (src/unnamed/part_001:275-287):
suppression first, else the edge-combined character; a `NaN` edge strength
makes the index `NaN` and the glyph `undefined` (`none`). -/
noncomputable def cellGlyphEdge (cs : List Char) (img : Img) (outW outH x y : ℕ) : Option Char :=
  if cellExtreme img outW outH x y = true ∨ (cellBright img outW outH x y : ℝ) < 5 ∨
      250 < (cellBright img outW outH x y : ℝ) then some ' '
  else (cellEdge img outW outH x y).bind (fun e =>
    strIndex cs (charIndexEdge cs.length e (cellBright img outW outH x y : ℝ)))

/-- `imageToAscii` (src/unnamed/part_001:190-292): the glyph grid of the
edge path. -/
noncomputable def imageToAscii (cs : List Char) (img : Img) (outW outH : ℕ) :
    List (List (Option Char)) :=
  (List.range outH).map (fun y => (List.range outW).map (fun x =>
    cellGlyphEdge cs img outW outH x y))

/-- One iteration of the frame loop of `convertFramesToAscii`
(src/main.ts:209-233): a frame is an identifier (the frame file path,
abstracted to a type `ι`) together with `some` raster, or `none` when
`loadImage` rejects (unreadable or corrupt file); the thrown error carries
the offending frame identifier. -/
def convertOne {ι : Type} (cs : List Char) (outW outH : ℕ) (fr : ι × Option Img) :
    Except ι (List (List (Option Char))) :=
  match fr.2 with
  | none => Except.error fr.1
  | some img => Except.ok (imageToAsciiWithColor cs img outW outH).1

/-- The sequential frame loop: outputs written so far, and the error that
escaped, if any.  The source has no per-frame recovery: the first thrown
error leaves the loop (and is re-thrown by `convert`, src/main.ts:111-114),
so frames after it are never processed. -/
def framesLoop {ι : Type} (cs : List Char) (outW outH : ℕ) :
    List (ι × Option Img) → List (List (List (Option Char))) →
    List (List (List (Option Char))) × Option ι
  | [], acc => (acc, none)
  | fr :: rest, acc =>
    match convertOne cs outW outH fr with
    | Except.ok g => framesLoop cs outW outH rest (acc ++ [g])
    | Except.error e => (acc, some e)

/-- `convertFramesToAscii` (src/main.ts:209-233) over a batch of frames. -/
def convertFramesToAscii {ι : Type} (cs : List Char) (outW outH : ℕ)
    (frames : List (ι × Option Img)) :
    List (List (List (Option Char))) × Option ι :=
  framesLoop cs outW outH frames []

/-- Entry of a constructed field. -/
theorem get2_mkField {α : Type} [Zero α] (h w : ℕ) (F : ℕ → ℕ → α) (y x : ℕ) :
    get2 (mkField h w F) y x = if y < h ∧ x < w then F y x else 0 := by
  unfold get2 mkField
  by_cases hy : y < h
  · have h1 : ((List.range h).map (fun y => (List.range w).map (fun x => F y x))).getD y []
        = (List.range w).map (fun x => F y x) := by
      simp [List.getD_eq_getElem?_getD, List.getElem?_map, List.getElem?_range, hy]
    rw [h1]
    by_cases hx : x < w
    · simp [List.getD_eq_getElem?_getD, List.getElem?_map, List.getElem?_range, hy, hx]
    · rw [List.getD_eq_default _ _ (by simpa using Nat.not_lt.mp hx)]
      simp [hx]
  · have h0 : ((List.range h).map (fun y => (List.range w).map (fun x => F y x))).getD y []
        = [] := List.getD_eq_default _ _ (by simpa using Nat.not_lt.mp hy)
    rw [h0]
    simp [hy]

theorem mkField_length {α : Type} (h w : ℕ) (F : ℕ → ℕ → α) :
    (mkField h w F).length = h := by simp [mkField]

theorem mkField_headD_length {α : Type} (h w : ℕ) (F : ℕ → ℕ → α) (hh : 0 < h) :
    ((mkField h w F).headD []).length = w := by
  unfold mkField
  rcases h with _ | h
  · omega
  · simp [List.range_succ_eq_map]

/-- Membership in the sampled-coordinate list. -/
theorem mem_sampleCoords {w h sX sY px py : ℕ} {c : ℕ × ℕ} :
    c ∈ sampleCoords w h sX sY px py ↔
      ∃ sx sy, sx < min sX (w - px) ∧ sy < min sY (h - py) ∧ c = (px + sx, py + sy) := by
  simp only [sampleCoords, List.mem_flatten, List.mem_map, List.mem_range]
  constructor
  · rintro ⟨row, ⟨sy, hsy, rfl⟩, hc⟩
    rcases List.mem_map.mp hc with ⟨sx, hsx, rfl⟩
    exact ⟨sx, sy, List.mem_range.mp hsx, hsy, rfl⟩
  · rintro ⟨sx, sy, hsx, hsy, rfl⟩
    exact ⟨_, ⟨sy, hsy, rfl⟩, List.mem_map.mpr ⟨sx, List.mem_range.mpr hsx, rfl⟩⟩

/-- Every sampled coordinate is inside the raster. -/
theorem sampleCoords_in_range {w h sX sY px py : ℕ} {c : ℕ × ℕ}
    (hc : c ∈ sampleCoords w h sX sY px py) : c.1 < w ∧ c.2 < h := by
  rcases mem_sampleCoords.mp hc with ⟨sx, sy, hsx, hsy, rfl⟩
  constructor <;> simp at hsx hsy <;> omega

theorem sampleCoords_length (w h sX sY px py : ℕ) :
    (sampleCoords w h sX sY px py).length = min sY (h - py) * min sX (w - px) := by
  simp [sampleCoords, List.length_flatten, Function.comp_def, List.map_const']

theorem cellCount_eq (img : Img) (outW outH x y : ℕ) :
    cellCount img outW outH x y =
      min (stepOf img.height outH) (img.height - y * stepOf img.height outH) *
      min (stepOf img.width outW) (img.width - x * stepOf img.width outW) := by
  simp [cellCount, cellBlock, sampleCoords_length]

theorem cellCount_pos (img : Img) (outW outH x y : ℕ)
    (hW : 0 < outW) (hH : 0 < outH) (hWle : outW ≤ img.width) (hHle : outH ≤ img.height)
    (hx : x < outW) (hy : y < outH) : 0 < cellCount img outW outH x y := by
  rw [cellCount_eq]
  have hsx : 1 ≤ stepOf img.width outW := (Nat.one_le_div_iff hW).mpr hWle
  have hsy : 1 ≤ stepOf img.height outH := (Nat.one_le_div_iff hH).mpr hHle
  have hxw : x * stepOf img.width outW + stepOf img.width outW ≤ img.width := by
    calc x * stepOf img.width outW + stepOf img.width outW
        = (x + 1) * stepOf img.width outW := by ring
      _ ≤ outW * stepOf img.width outW := Nat.mul_le_mul_right _ (by omega)
      _ = stepOf img.width outW * outW := Nat.mul_comm _ _
      _ ≤ img.width := Nat.div_mul_le_self _ _
  have hyh : y * stepOf img.height outH + stepOf img.height outH ≤ img.height := by
    calc y * stepOf img.height outH + stepOf img.height outH
        = (y + 1) * stepOf img.height outH := by ring
      _ ≤ outH * stepOf img.height outH := Nat.mul_le_mul_right _ (by omega)
      _ = stepOf img.height outH * outH := Nat.mul_comm _ _
      _ ≤ img.height := Nat.div_mul_le_self _ _
  have : 0 < min (stepOf img.height outH) (img.height - y * stepOf img.height outH) := by omega
  have : 0 < min (stepOf img.width outW) (img.width - x * stepOf img.width outW) := by omega
  positivity

theorem mem_cellBlock {img : Img} {outW outH x y : ℕ} {p : RGB}
    (hp : p ∈ cellBlock img outW outH x y) :
    ∃ a b, a < img.width ∧ b < img.height ∧ p = img.pixel a b := by
  rcases List.mem_map.mp hp with ⟨c, hc, rfl⟩
  rcases sampleCoords_in_range hc with ⟨h1, h2⟩
  exact ⟨c.1, c.2, h1, h2, rfl⟩

theorem uniformImg_pixel {w h a b : ℕ} {c : RGB} (ha : a < w) (hb : b < h) :
    (uniformImg w h c).pixel a b = c := by
  have h1 : (List.replicate h (List.replicate w c)).getD b [] = List.replicate w c := by
    rw [List.getD_eq_getElem _ _ (by simpa using hb), List.getElem_replicate]
  unfold uniformImg Img.pixel
  simp only [h1]
  rw [List.getD_eq_getElem _ _ (by simpa using ha), List.getElem_replicate]

/-- Sum of a map that is constant on the list. -/
theorem sum_map_const {α β : Type} [Semiring β] (l : List α) (f : α → β) (v : β)
    (hf : ∀ a ∈ l, f a = v) : (l.map f).sum = (l.length : β) * v := by
  induction l with
  | nil => simp
  | cons a t ih =>
    rw [List.map_cons, List.sum_cons, hf a (List.mem_cons_self a t),
      ih (fun b hb => hf b (List.mem_cons_of_mem _ hb)), List.length_cons]
    push_cast
    rw [add_mul, one_mul, add_comm]

theorem lum_gray {α : Type} [LinearOrderedField α] (g : ℕ) : (lum (g, g, g) : α) = g := by
  unfold lum
  ring

/-- Mean luminance over a block whose pixels all equal `(g, g, g)`. -/
theorem cellBright_const {α : Type} [LinearOrderedField α] {img : Img} {outW outH x y g : ℕ}
    (hcount : 0 < cellCount img outW outH x y)
    (hall : ∀ p ∈ cellBlock img outW outH x y, p = (g, g, g)) :
    (cellBright img outW outH x y : α) = g := by
  unfold cellBright
  rw [if_pos hcount, sum_map_const _ _ (g : α)
    (fun p hp => by rw [hall p hp, lum_gray])]
  have hb : (cellBlock img outW outH x y).length = cellCount img outW outH x y := rfl
  have hne : ((cellCount img outW outH x y : ℕ) : α) ≠ 0 :=
    Nat.cast_ne_zero.mpr (by omega)
  rw [hb, mul_div_cancel_left₀ _ hne]

theorem cellExtreme_const_false {img : Img} {outW outH x y g : ℕ}
    (hcount : 0 < cellCount img outW outH x y)
    (hall : ∀ p ∈ cellBlock img outW outH x y, p = (g, g, g))
    (hg0 : g ≠ 0) (hg255 : g ≠ 255) :
    cellExtreme img outW outH x y = false := by
  unfold cellExtreme
  rcases List.exists_mem_of_length_pos hcount with ⟨p, hp⟩
  rw [List.all_eq_false]
  refine ⟨p, hp, ?_⟩
  rw [hall p hp]
  simp [extremePx, hg0, hg255]

theorem cellExtreme_of_all {img : Img} {outW outH x y : ℕ}
    (hall : ∀ p ∈ cellBlock img outW outH x y, extremePx p = true) :
    cellExtreme img outW outH x y = true := by
  unfold cellExtreme
  rw [List.all_eq_true]
  exact hall

/-- Bounds for the brightness-only glyph index. -/
theorem charIndexBright_bounds {α : Type} [LinearOrderedField α] [FloorRing α]
    {len : ℕ} {b : α} (hlen : 3 ≤ len) (hb5 : 5 ≤ b) (hb250 : b ≤ 250) :
    1 ≤ charIndexBright len b ∧ charIndexBright len b ≤ (len : ℤ) - 2 := by
  unfold charIndexBright
  have hL : (1 : α) ≤ (len : α) - 2 := by
    have : (3 : α) ≤ (len : α) := by exact_mod_cast hlen
    linarith
  have hb0 : (0 : α) ≤ b / 255 := by positivity
  have hlt1 : b / 255 < 1 := by
    rw [div_lt_one (by norm_num)]
    linarith
  constructor
  · have : (0 : α) ≤ b / 255 * ((len : α) - 2) := by positivity
    have := Int.floor_nonneg.mpr this
    omega
  · have hx : b / 255 * ((len : α) - 2) < (len : α) - 2 := by
      calc b / 255 * ((len : α) - 2) < 1 * ((len : α) - 2) :=
        mul_lt_mul_of_pos_right hlt1 (by linarith)
      _ = (len : α) - 2 := one_mul _
    have : ⌊b / 255 * ((len : α) - 2)⌋ < (len : ℤ) - 2 := by
      apply Int.floor_lt.mpr
      push_cast
      exact hx
    omega

/-- Bounds for the edge-combined glyph index. -/
theorem charIndexEdge_bounds {α : Type} [LinearOrderedField α] [FloorRing α]
    {len : ℕ} {e b : α} (hlen : 3 ≤ len) (he0 : 0 ≤ e) (he255 : e ≤ 255)
    (hb5 : 5 ≤ b) (hb250 : b ≤ 250) :
    1 ≤ charIndexEdge len e b ∧ charIndexEdge len e b ≤ (len : ℤ) - 2 := by
  unfold charIndexEdge
  have hc0 : (0 : α) ≤ (e * (7 / 10) + b * (3 / 10)) / 255 := by positivity
  have hc1 : (e * (7 / 10) + b * (3 / 10)) / 255 < 1 := by
    rw [div_lt_one (by norm_num)]
    linarith
  have hL0 : (0 : α) ≤ (len : α) - 3 := by
    have : (3 : α) ≤ (len : α) := by exact_mod_cast hlen
    linarith
  constructor
  · have : (0 : α) ≤ (e * (7 / 10) + b * (3 / 10)) / 255 * ((len : α) - 3) := by positivity
    have := Int.floor_nonneg.mpr this
    omega
  · have hx : (e * (7 / 10) + b * (3 / 10)) / 255 * ((len : α) - 3) < (len : α) - 2 := by
      have h1 : (e * (7 / 10) + b * (3 / 10)) / 255 * ((len : α) - 3) ≤ (len : α) - 3 :=
        mul_le_of_le_one_left hL0 (le_of_lt hc1)
      linarith
    have : ⌊(e * (7 / 10) + b * (3 / 10)) / 255 * ((len : α) - 3)⌋ < (len : ℤ) - 2 := by
      apply Int.floor_lt.mpr
      push_cast
      exact hx
    omega

/-- C2: for a non-suppressed cell with a character set of length ≥ 3, edge
strength in [0,255] and mean luminance in [5,250], the edge-combined index
and the brightness-only index both lie in [1, len−2], and indexing the
character set stays in bounds. -/
theorem c2_index_bounds (cs : List Char) (e b : ℚ) (hlen : 3 ≤ cs.length)
    (he0 : 0 ≤ e) (he255 : e ≤ 255) (hb5 : 5 ≤ b) (hb250 : b ≤ 250) :
    (1 ≤ charIndexEdge cs.length e b ∧ charIndexEdge cs.length e b ≤ (cs.length : ℤ) - 2) ∧
    (1 ≤ charIndexBright cs.length b ∧ charIndexBright cs.length b ≤ (cs.length : ℤ) - 2) ∧
    (strIndex cs (charIndexEdge cs.length e b)).isSome = true ∧
    (strIndex cs (charIndexBright cs.length b)).isSome = true := by
  obtain ⟨h1, h2⟩ := charIndexEdge_bounds (α := ℚ) hlen he0 he255 hb5 hb250
  obtain ⟨h3, h4⟩ := charIndexBright_bounds (α := ℚ) hlen hb5 hb250
  refine ⟨⟨h1, h2⟩, ⟨h3, h4⟩, ?_, ?_⟩ <;>
  · rw [strIndex, if_pos ⟨by omega, by omega⟩]
    rfl

theorem c2_index_bounds_witness :
    (1 ≤ charIndexEdge (['a','b','c','d'] : List Char).length (100 : ℚ) 128 ∧
      charIndexEdge (['a','b','c','d'] : List Char).length (100 : ℚ) 128 ≤
        ((['a','b','c','d'] : List Char).length : ℤ) - 2) ∧
    (1 ≤ charIndexBright (['a','b','c','d'] : List Char).length (128 : ℚ) ∧
      charIndexBright (['a','b','c','d'] : List Char).length (128 : ℚ) ≤
        ((['a','b','c','d'] : List Char).length : ℤ) - 2) ∧
    (strIndex ['a','b','c','d'] (charIndexEdge (['a','b','c','d'] : List Char).length
      (100 : ℚ) 128)).isSome = true ∧
    (strIndex ['a','b','c','d'] (charIndexBright (['a','b','c','d'] : List Char).length
      (128 : ℚ))).isSome = true :=
  c2_index_bounds ['a','b','c','d'] 100 128 (by norm_num) (by norm_num) (by norm_num)
    (by norm_num) (by norm_num)

/-- C1 (amended): for a valid configuration whose character set has no
space character in its interior slots 1..len−2 (true of the repository's
default sets, where the space is the last character), a cell's glyph is
the blank glyph exactly when the suppression condition holds, and the
cell's recorded color is the block's averaged (R,G,B) in every case. -/
theorem c1_suppression_iff (cs : List Char) (img : Img) (outW outH x y : ℕ)
    (hlen : 3 ≤ cs.length)
    (hW : 0 < outW) (hH : 0 < outH) (hWle : outW ≤ img.width) (hHle : outH ≤ img.height)
    (hx : x < outW) (hy : y < outH)
    (hspace : ∀ i : ℕ, i < cs.length → 1 ≤ i → (i : ℤ) ≤ (cs.length : ℤ) - 2 →
      cs.getD i ' ' ≠ ' ') :
    (cellGlyphColor cs img outW outH x y = some ' ' ↔
      (cellExtreme img outW outH x y = true ∨ (cellBright img outW outH x y : ℚ) < 5 ∨
        250 < (cellBright img outW outH x y : ℚ))) ∧
    cellColor img outW outH x y =
      some (jsRound (((cellBlock img outW outH x y).map (fun p => (p.1 : ℚ))).sum /
              (cellCount img outW outH x y : ℚ)),
            jsRound (((cellBlock img outW outH x y).map (fun p => (p.2.1 : ℚ))).sum /
              (cellCount img outW outH x y : ℚ)),
            jsRound (((cellBlock img outW outH x y).map (fun p => (p.2.2 : ℚ))).sum /
              (cellCount img outW outH x y : ℚ))) := by
  have hcount := cellCount_pos img outW outH x y hW hH hWle hHle hx hy
  constructor
  · constructor
    · intro hg
      by_contra hnot
      push_neg at hnot
      obtain ⟨hne, hb5, hb250⟩ := hnot
      obtain ⟨hi1, hi2⟩ := charIndexBright_bounds (α := ℚ) hlen hb5 hb250
      rw [cellGlyphColor,
        if_neg (by simp only [not_or]; exact ⟨hne, not_lt.mpr hb5, not_lt.mpr hb250⟩)] at hg
      rw [strIndex, if_pos ⟨by omega, by omega⟩] at hg
      have := hspace (charIndexBright cs.length
        (cellBright img outW outH x y : ℚ)).toNat (by omega) (by omega) (by omega)
      exact this (Option.some_injective _ hg)
    · intro hcond
      rw [cellGlyphColor, if_pos hcond]
  · rw [cellColor, if_pos hcount]

theorem c1_suppression_iff_witness :
    (cellGlyphColor ['@','%','#','*','+','=','-',':','.',' ']
        (uniformImg 1 1 (100, 100, 100)) 1 1 0 0 = some ' ' ↔
      (cellExtreme (uniformImg 1 1 (100, 100, 100)) 1 1 0 0 = true ∨
        (cellBright (uniformImg 1 1 (100, 100, 100)) 1 1 0 0 : ℚ) < 5 ∨
        250 < (cellBright (uniformImg 1 1 (100, 100, 100)) 1 1 0 0 : ℚ))) ∧
    cellColor (uniformImg 1 1 (100, 100, 100)) 1 1 0 0 =
      some (jsRound (((cellBlock (uniformImg 1 1 (100, 100, 100)) 1 1 0 0).map
              (fun p => (p.1 : ℚ))).sum / (cellCount (uniformImg 1 1 (100, 100, 100)) 1 1 0 0 : ℚ)),
            jsRound (((cellBlock (uniformImg 1 1 (100, 100, 100)) 1 1 0 0).map
              (fun p => (p.2.1 : ℚ))).sum / (cellCount (uniformImg 1 1 (100, 100, 100)) 1 1 0 0 : ℚ)),
            jsRound (((cellBlock (uniformImg 1 1 (100, 100, 100)) 1 1 0 0).map
              (fun p => (p.2.2 : ℚ))).sum / (cellCount (uniformImg 1 1 (100, 100, 100)) 1 1 0 0 : ℚ))) :=
  c1_suppression_iff ['@','%','#','*','+','=','-',':','.',' ']
    (uniformImg 1 1 (100, 100, 100)) 1 1 0 0 (by decide) (by decide) (by decide)
    (by decide) (by decide) (by decide) (by decide) (by decide)

/-- C1 counterexample: with character set `a`, space, `b` (length 3, space
in an interior slot) and a uniform mid-gray 1×1 raster, the cell emits the
blank glyph although the suppression condition is false. -/
theorem c1_counterexample :
    cellGlyphColor ['a',' ','b'] (uniformImg 1 1 (128, 128, 128)) 1 1 0 0 = some ' ' ∧
    cellExtreme (uniformImg 1 1 (128, 128, 128)) 1 1 0 0 = false ∧
    ¬ ((cellBright (uniformImg 1 1 (128, 128, 128)) 1 1 0 0 : ℚ) < 5) ∧
    ¬ (250 < (cellBright (uniformImg 1 1 (128, 128, 128)) 1 1 0 0 : ℚ)) := by
  have hbr : (cellBright (uniformImg 1 1 (128, 128, 128)) 1 1 0 0 : ℚ) = 128 := by
    have hb : cellBlock (uniformImg 1 1 (128, 128, 128)) 1 1 0 0 = [(128, 128, 128)] := rfl
    have hc : cellCount (uniformImg 1 1 (128, 128, 128)) 1 1 0 0 = 1 := rfl
    unfold cellBright
    rw [hc, hb]
    norm_num [lum]
  have hex : cellExtreme (uniformImg 1 1 (128, 128, 128)) 1 1 0 0 = false := rfl
  refine ⟨?_, hex, ?_, ?_⟩
  · unfold cellGlyphColor
    rw [hbr, hex]
    norm_num [strIndex, charIndexBright]
  · rw [hbr]
    norm_num
  · rw [hbr]
    norm_num

/-- C8: for two uniform rasters with gray levels g1 < g2, both in [5,250],
neither cell is suppressed, each cell's glyph is the brightness-indexed
character for its gray level, and the brightness-only glyph index is
monotone in the gray level. -/
theorem c8_monotone (cs : List Char) (img1 img2 : Img) (outW outH x y g1 g2 : ℕ)
    (hlen : 3 ≤ cs.length)
    (h1px : ∀ a b, a < img1.width → b < img1.height → img1.pixel a b = (g1, g1, g1))
    (h2px : ∀ a b, a < img2.width → b < img2.height → img2.pixel a b = (g2, g2, g2))
    (hW : 0 < outW) (hH : 0 < outH)
    (hWle1 : outW ≤ img1.width) (hHle1 : outH ≤ img1.height)
    (hWle2 : outW ≤ img2.width) (hHle2 : outH ≤ img2.height)
    (hx : x < outW) (hy : y < outH)
    (hg5 : 5 ≤ g1) (hlt : g1 < g2) (hg250 : g2 ≤ 250) :
    cellGlyphColor cs img1 outW outH x y = strIndex cs (charIndexBright cs.length (g1 : ℚ)) ∧
    cellGlyphColor cs img2 outW outH x y = strIndex cs (charIndexBright cs.length (g2 : ℚ)) ∧
    charIndexBright cs.length (g1 : ℚ) ≤ charIndexBright cs.length (g2 : ℚ) := by
  have hc1 := cellCount_pos img1 outW outH x y hW hH hWle1 hHle1 hx hy
  have hc2 := cellCount_pos img2 outW outH x y hW hH hWle2 hHle2 hx hy
  have hall1 : ∀ p ∈ cellBlock img1 outW outH x y, p = (g1, g1, g1) := by
    intro p hp
    rcases mem_cellBlock hp with ⟨a, b, ha, hb, rfl⟩
    exact h1px a b ha hb
  have hall2 : ∀ p ∈ cellBlock img2 outW outH x y, p = (g2, g2, g2) := by
    intro p hp
    rcases mem_cellBlock hp with ⟨a, b, ha, hb, rfl⟩
    exact h2px a b ha hb
  have hb1 : (cellBright img1 outW outH x y : ℚ) = g1 := cellBright_const hc1 hall1
  have hb2 : (cellBright img2 outW outH x y : ℚ) = g2 := cellBright_const hc2 hall2
  have he1 : cellExtreme img1 outW outH x y = false :=
    cellExtreme_const_false hc1 hall1 (by omega) (by omega)
  have he2 : cellExtreme img2 outW outH x y = false :=
    cellExtreme_const_false hc2 hall2 (by omega) (by omega)
  have hq1 : (5 : ℚ) ≤ (g1 : ℚ) := by exact_mod_cast hg5
  have hq2 : (g2 : ℚ) ≤ 250 := by exact_mod_cast hg250
  have hq12 : (g1 : ℚ) ≤ (g2 : ℚ) := by exact_mod_cast Nat.le_of_lt hlt
  refine ⟨?_, ?_, ?_⟩
  · rw [cellGlyphColor, hb1, he1, if_neg (by push_neg; refine ⟨by simp, by linarith, by linarith⟩)]
  · rw [cellGlyphColor, hb2, he2, if_neg (by push_neg; refine ⟨by simp, by linarith, by linarith⟩)]
  · unfold charIndexBright
    have hmono : (g1 : ℚ) / 255 * ((cs.length : ℚ) - 2) ≤ (g2 : ℚ) / 255 * ((cs.length : ℚ) - 2) := by
      have hL : (0 : ℚ) ≤ (cs.length : ℚ) - 2 := by
        have : (3 : ℚ) ≤ (cs.length : ℚ) := by exact_mod_cast hlen
        linarith
      have : (g1 : ℚ) / 255 ≤ (g2 : ℚ) / 255 := by linarith
      exact mul_le_mul_of_nonneg_right this hL
    have := Int.floor_le_floor hmono
    omega

theorem c8_monotone_witness :
    cellGlyphColor ['a','b','c'] (uniformImg 2 2 (10, 10, 10)) 1 1 0 0 =
      strIndex ['a','b','c'] (charIndexBright (['a','b','c'] : List Char).length (10 : ℚ)) ∧
    cellGlyphColor ['a','b','c'] (uniformImg 2 2 (200, 200, 200)) 1 1 0 0 =
      strIndex ['a','b','c'] (charIndexBright (['a','b','c'] : List Char).length (200 : ℚ)) ∧
    charIndexBright (['a','b','c'] : List Char).length (10 : ℚ) ≤
      charIndexBright (['a','b','c'] : List Char).length (200 : ℚ) :=
  c8_monotone ['a','b','c'] (uniformImg 2 2 (10, 10, 10)) (uniformImg 2 2 (200, 200, 200))
    1 1 0 0 10 200 (by decide) (fun a b ha hb => uniformImg_pixel ha hb)
    (fun a b ha hb => uniformImg_pixel ha hb) (by decide) (by decide)
    (by decide) (by decide) (by decide) (by decide) (by decide) (by decide)
    (by decide) (by decide) (by decide)

/-- C5: if every source pixel is pure black or pure white, every cell of
the glyph grid is the blank glyph, in both the color path and the
edge-detection path, and the grid has the requested dimensions. -/
theorem c5_extreme_blank (cs : List Char) (img : Img) (outW outH : ℕ)
    (hlen : 3 ≤ cs.length) (hWle : outW ≤ img.width) (hHle : outH ≤ img.height)
    (hpx : ∀ a b, a < img.width → b < img.height → extremePx (img.pixel a b) = true) :
    (∀ x, x < outW → ∀ y, y < outH →
      cellGlyphColor cs img outW outH x y = some ' ' ∧
      cellGlyphEdge cs img outW outH x y = some ' ') ∧
    (imageToAsciiWithColor cs img outW outH).1.length = outH ∧
    (∀ row ∈ (imageToAsciiWithColor cs img outW outH).1, row.length = outW) ∧
    (∀ row ∈ (imageToAsciiWithColor cs img outW outH).1, ∀ g ∈ row, g = some ' ') ∧
    (∀ row ∈ imageToAscii cs img outW outH, ∀ g ∈ row, g = some ' ') := by
  have hcell : ∀ x y : ℕ, cellExtreme img outW outH x y = true := by
    intro x y
    apply cellExtreme_of_all
    intro p hp
    rcases mem_cellBlock hp with ⟨a, b, ha, hb, rfl⟩
    exact hpx a b ha hb
  have hcol : ∀ x y : ℕ, cellGlyphColor cs img outW outH x y = some ' ' := by
    intro x y
    rw [cellGlyphColor, if_pos (Or.inl (hcell x y))]
  have hedge : ∀ x y : ℕ, cellGlyphEdge cs img outW outH x y = some ' ' := by
    intro x y
    rw [cellGlyphEdge, if_pos (Or.inl (hcell x y))]
  refine ⟨fun x _ y _ => ⟨hcol x y, hedge x y⟩, ?_, ?_, ?_, ?_⟩
  · simp [imageToAsciiWithColor]
  · intro row hrow
    rcases List.mem_map.mp hrow with ⟨y, _, rfl⟩
    simp
  · intro row hrow g hg
    rcases List.mem_map.mp hrow with ⟨y, _, rfl⟩
    rcases List.mem_map.mp hg with ⟨x, _, rfl⟩
    exact hcol x y
  · intro row hrow g hg
    rcases List.mem_map.mp hrow with ⟨y, _, rfl⟩
    rcases List.mem_map.mp hg with ⟨x, _, rfl⟩
    exact hedge x y

theorem c5_extreme_blank_witness :
    cellGlyphColor ['a','b','c'] (uniformImg 4 4 (0, 0, 0)) 2 2 0 0 = some ' ' ∧
    cellGlyphEdge ['a','b','c'] (uniformImg 4 4 (0, 0, 0)) 2 2 0 0 = some ' ' ∧
    cellGlyphColor ['a','b','c'] (uniformImg 4 4 (0, 0, 0)) 2 2 1 1 = some ' ' ∧
    cellGlyphEdge ['a','b','c'] (uniformImg 4 4 (0, 0, 0)) 2 2 1 1 = some ' ' ∧
    (imageToAsciiWithColor ['a','b','c'] (uniformImg 4 4 (0, 0, 0)) 2 2).1.length = 2 := by
  have h := c5_extreme_blank ['a','b','c'] (uniformImg 4 4 (0, 0, 0)) 2 2 (by decide)
    (by decide) (by decide)
    (fun a b ha hb => by
      rw [uniformImg_pixel (show a < 4 by simpa [uniformImg] using ha)
        (show b < 4 by simpa [uniformImg] using hb)]
      rfl)
  exact ⟨(h.1 0 (by norm_num) 0 (by norm_num)).1, (h.1 0 (by norm_num) 0 (by norm_num)).2,
    (h.1 1 (by norm_num) 1 (by norm_num)).1, (h.1 1 (by norm_num) 1 (by norm_num)).2,
    h.2.1⟩

/-- C10: with `preserveAspectRatio`, for any source image with positive
dimensions the recomputed grid dimensions never exceed the configured
limits, and the clamped-height branch re-derives a width strictly below
the configured one. -/
theorem c10_dims_clamp (imgW imgH : ℕ) (outW outH : ℤ)
    (hw : 0 < imgW) (hh : 0 < imgH) :
    (computeDims true imgW imgH outW outH).1 ≤ outW ∧
    (computeDims true imgW imgH outW outH).2 ≤ outH ∧
    (outH < ⌊(outW : ℚ) / ((imgW : ℚ) / (imgH : ℚ)) / 2⌋ →
      (computeDims true imgW imgH outW outH).1 < outW) := by
  have hasp : (0 : ℚ) < (imgW : ℚ) / (imgH : ℚ) := by
    apply div_pos <;> exact_mod_cast ‹_›
  unfold computeDims
  by_cases hbr : outH < ⌊(outW : ℚ) / ((imgW : ℚ) / (imgH : ℚ)) / 2⌋
  · rw [if_pos rfl, if_pos hbr]
    have hfl : ((outH : ℚ) + 1) ≤ (outW : ℚ) / ((imgW : ℚ) / (imgH : ℚ)) / 2 := by
      have h1 : (outH + 1 : ℤ) ≤ ⌊(outW : ℚ) / ((imgW : ℚ) / (imgH : ℚ)) / 2⌋ := by omega
      calc ((outH : ℚ) + 1) = ((outH + 1 : ℤ) : ℚ) := by push_cast; ring
        _ ≤ (⌊(outW : ℚ) / ((imgW : ℚ) / (imgH : ℚ)) / 2⌋ : ℚ) := by exact_mod_cast h1
        _ ≤ _ := Int.floor_le _
    have hlt : (outH : ℚ) * ((imgW : ℚ) / (imgH : ℚ)) * 2 < (outW : ℚ) := by
      have h2 : ((outH : ℚ) + 1) * (((imgW : ℚ) / (imgH : ℚ)) * 2) ≤ (outW : ℚ) := by
        rw [← le_div_iff (by positivity)]
        calc ((outH : ℚ) + 1) ≤ (outW : ℚ) / ((imgW : ℚ) / (imgH : ℚ)) / 2 := hfl
          _ = (outW : ℚ) / ((imgW : ℚ) / (imgH : ℚ) * 2) := by ring
      nlinarith
    refine ⟨?_, le_refl _, fun _ => ?_⟩ <;>
    · have := Int.floor_lt.mpr (by push_cast; linarith : (outH : ℚ) * ((imgW : ℚ) / (imgH : ℚ)) * 2 < ((outW : ℤ) : ℚ))
      omega
  · rw [if_pos rfl, if_neg hbr]
    exact ⟨le_refl _, by omega, fun hc => absurd hc hbr⟩

theorem c10_dims_clamp_witness :
    (computeDims true 50 100 120 60).1 ≤ 120 ∧
    (computeDims true 50 100 120 60).2 ≤ 60 ∧
    (computeDims true 50 100 120 60).1 < 120 := by
  have h := c10_dims_clamp 50 100 120 60 (by norm_num) (by norm_num)
  exact ⟨h.1, h.2.1, h.2.2 (by norm_num)⟩

/-- The frame loop on `pre ++ bad :: post`, `pre` all readable: outputs
for exactly the frames of `pre`, then the error of the first bad frame. -/
theorem framesLoop_abort {ι : Type} (cs : List Char) (outW outH : ℕ)
    (pre post : List (ι × Option Img)) (name : ι)
    (acc : List (List (List (Option Char))))
    (hpre : ∀ fr ∈ pre, fr.2 ≠ none) :
    (framesLoop cs outW outH (pre ++ (name, none) :: post) acc).2 = some name ∧
    (framesLoop cs outW outH (pre ++ (name, none) :: post) acc).1.length =
      acc.length + pre.length := by
  induction pre generalizing acc with
  | nil => simp [framesLoop, convertOne]
  | cons fr rest ih =>
    obtain ⟨i, hi⟩ := Option.ne_none_iff_exists'.mp (hpre fr (List.mem_cons_self fr rest))
    have hstep : framesLoop cs outW outH ((fr :: rest) ++ (name, none) :: post) acc =
        framesLoop cs outW outH (rest ++ (name, none) :: post)
          (acc ++ [(imageToAsciiWithColor cs i outW outH).1]) := by
      rw [List.cons_append, framesLoop, convertOne, hi]
    rw [hstep]
    obtain ⟨h1, h2⟩ := ih (acc ++ [(imageToAsciiWithColor cs i outW outH).1])
      (fun g hg => hpre g (List.mem_cons_of_mem _ hg))
    refine ⟨h1, ?_⟩
    rw [h2]
    simp
    omega

/-- C7 (amended): a corrupt frame makes the batch abort: the frames before
the first corrupt one are converted, the error surfaces that frame's
identifier, and no later frame is processed (output count = number of
frames before the corrupt one). -/
theorem c7_abort_on_error {ι : Type} (cs : List Char) (outW outH : ℕ)
    (pre post : List (ι × Option Img)) (name : ι)
    (hpre : ∀ fr ∈ pre, fr.2 ≠ none) :
    (convertFramesToAscii cs outW outH (pre ++ (name, none) :: post)).2 = some name ∧
    (convertFramesToAscii cs outW outH (pre ++ (name, none) :: post)).1.length =
      pre.length := by
  obtain ⟨h1, h2⟩ := framesLoop_abort cs outW outH pre post name [] hpre
  exact ⟨h1, by simpa using h2⟩

theorem c7_abort_on_error_witness :
    (convertFramesToAscii ['a','b','c'] 1 1
      ([((0 : ℕ), some (uniformImg 1 1 (128, 128, 128)))] ++
        (1, none) :: [(2, some (uniformImg 1 1 (128, 128, 128)))])).2 = some 1 ∧
    (convertFramesToAscii ['a','b','c'] 1 1
      ([((0 : ℕ), some (uniformImg 1 1 (128, 128, 128)))] ++
        (1, none) :: [(2, some (uniformImg 1 1 (128, 128, 128)))])).1.length = 1 :=
  c7_abort_on_error ['a','b','c'] 1 1 [((0 : ℕ), some (uniformImg 1 1 (128, 128, 128)))]
    [(2, some (uniformImg 1 1 (128, 128, 128)))] 1
    (fun fr hfr => by rcases List.mem_singleton.mp hfr with rfl; simp)

/-- C7 counterexample: on the batch good, corrupt, good the pipeline does
not continue past the corrupt frame: only one output is produced and the
run ends in the corrupt frame's error instead of completing. -/
theorem c7_counterexample :
    (convertFramesToAscii ['a','b','c'] 1 1
      [((0 : ℕ), some (uniformImg 1 1 (128, 128, 128))), (1, none),
        (2, some (uniformImg 1 1 (128, 128, 128)))]).2 ≠ none ∧
    (convertFramesToAscii ['a','b','c'] 1 1
      [((0 : ℕ), some (uniformImg 1 1 (128, 128, 128))), (1, none),
        (2, some (uniformImg 1 1 (128, 128, 128)))]).1.length ≠ 3 - 1 := by
  have h := framesLoop_abort ['a','b','c'] 1 1
    [((0 : ℕ), some (uniformImg 1 1 (128, 128, 128)))]
    [(2, some (uniformImg 1 1 (128, 128, 128)))] 1 []
    (fun fr hfr => by rcases List.mem_singleton.mp hfr with rfl; simp)
  simp only [List.singleton_append, List.length_nil, List.length_cons, Nat.zero_add] at h
  rw [show (convertFramesToAscii ['a','b','c'] 1 1
      [((0 : ℕ), some (uniformImg 1 1 (128, 128, 128))), (1, none),
        (2, some (uniformImg 1 1 (128, 128, 128)))]) = framesLoop ['a','b','c'] 1 1
      [((0 : ℕ), some (uniformImg 1 1 (128, 128, 128))), (1, none),
        (2, some (uniformImg 1 1 (128, 128, 128)))] [] from rfl]
  refine ⟨?_, ?_⟩
  · rw [h.1]
    simp
  · rw [h.2]
    simp

/-- C3: the normalization pass applied to an all-zero magnitude field (a
flat frame) does not short-circuit: every entry becomes `0/0 · 255`, a JS
`NaN` (`none`), not `0`.  Stated at the `ℝ` instance used by
`cannyEdgeDetection`. -/
theorem c3_normalize_flat_nan :
    normalizeField (List.replicate 3 (List.replicate 3 (0 : ℝ))) =
      List.replicate 3 (List.replicate 3 (none : Option ℝ)) ∧
    (none : Option ℝ) ≠ some 0 := by
  constructor
  · simp [normalizeField, maxOfField, jsDiv, List.replicate]
  · simp

theorem gaussKernel_sum_nat :
    (∑ ky ∈ Finset.range 5, ∑ kx ∈ Finset.range 5, gaussKernel ky kx) = 256 := by
  decide

theorem gaussKernel_sum {α : Type} [LinearOrderedField α] :
    (∑ ky ∈ Finset.range 5, ∑ kx ∈ Finset.range 5, (gaussKernel ky kx : α)) = 256 := by
  exact_mod_cast gaussKernel_sum_nat

/-- An entry produced by `get2` is an entry of the field or the default 0. -/
theorem get2_mem_or_zero {α : Type} [Zero α] (f : List (List α)) (y x : ℕ) :
    get2 f y x ∈ f.flatten ∨ get2 f y x = 0 := by
  unfold get2
  by_cases hy : y < f.length
  · have hrow : f.getD y [] = f[y] := List.getD_eq_getElem _ _ hy
    by_cases hx : x < (f.getD y []).length
    · left
      rw [List.mem_flatten]
      refine ⟨f[y], List.getElem_mem hy, ?_⟩
      rw [hrow] at hx ⊢
      rw [List.getD_eq_getElem _ _ hx]
      exact List.getElem_mem hx
    · right
      rw [List.getD_eq_default _ _ (by omega)]
  · right
    have h0 : f.getD y [] = [] := List.getD_eq_default _ _ (by omega)
    rw [h0]
    rfl

theorem mem_flatten_mkField {α : Type} {h w : ℕ} {F : ℕ → ℕ → α} {y x : ℕ}
    (hy : y < h) (hx : x < w) : F y x ∈ (mkField h w F).flatten := by
  rw [List.mem_flatten]
  exact ⟨(List.range w).map (F y),
    List.mem_map.mpr ⟨y, List.mem_range.mpr hy, rfl⟩,
    List.mem_map.mpr ⟨x, List.mem_range.mpr hx, rfl⟩⟩

theorem flatten_mkField_mem {α : Type} {h w : ℕ} {F : ℕ → ℕ → α} {v : α}
    (hv : v ∈ (mkField h w F).flatten) : ∃ y x, y < h ∧ x < w ∧ v = F y x := by
  rw [List.mem_flatten] at hv
  obtain ⟨row, hrow, hvr⟩ := hv
  rcases List.mem_map.mp hrow with ⟨y, hy, rfl⟩
  rcases List.mem_map.mp hvr with ⟨x, hx, rfl⟩
  exact ⟨y, x, List.mem_range.mp hy, List.mem_range.mp hx, rfl⟩

/-- C6 (amended): every smoothed sample lies between `min a 0` and
`max b 0`, where `[a, b]` bounds the input samples: the convolved interior
stays inside the input's range, while the zeroed 2-pixel border can only
add the value 0. -/
theorem c6_blur_range {α : Type} [LinearOrderedField α] (f : List (List α)) (a b : α)
    (h5 : 5 ≤ f.length) (w5 : 5 ≤ (f.headD []).length)
    (hmin : ∀ v ∈ f.flatten, a ≤ v) (hmax : ∀ v ∈ f.flatten, v ≤ b) :
    ∀ v ∈ (gaussianBlur f).flatten, min a 0 ≤ v ∧ v ≤ max b 0 := by
  intro v hv
  obtain ⟨y, x, hy, hx, rfl⟩ := flatten_mkField_mem hv
  by_cases hint : 2 ≤ y ∧ y + 2 < f.length ∧ 2 ≤ x ∧ x + 2 < (f.headD []).length
  · rw [if_pos hint]
    have htap : ∀ ky kx : ℕ, min a 0 ≤ get2 f (y + ky - 2) (x + kx - 2) ∧
        get2 f (y + ky - 2) (x + kx - 2) ≤ max b 0 := by
      intro ky kx
      rcases get2_mem_or_zero f (y + ky - 2) (x + kx - 2) with hm | hz
      · exact ⟨le_trans (min_le_left _ _) (hmin _ hm),
          le_trans (hmax _ hm) (le_max_left _ _)⟩
      · rw [hz]
        exact ⟨min_le_right _ _, le_max_right _ _⟩
    constructor
    · rw [le_div_iff (by norm_num : (0 : α) < 256)]
      calc min a 0 * 256 = ∑ ky ∈ Finset.range 5, ∑ kx ∈ Finset.range 5,
            min a 0 * (gaussKernel ky kx : α) := by
              simp only [← Finset.mul_sum]
              rw [gaussKernel_sum]
        _ ≤ _ := by
              apply Finset.sum_le_sum
              intro ky _
              apply Finset.sum_le_sum
              intro kx _
              exact mul_le_mul_of_nonneg_right (htap ky kx).1 (by positivity)
    · rw [div_le_iff (by norm_num : (0 : α) < 256)]
      calc ∑ ky ∈ Finset.range 5, ∑ kx ∈ Finset.range 5,
            get2 f (y + ky - 2) (x + kx - 2) * (gaussKernel ky kx : α)
          ≤ ∑ ky ∈ Finset.range 5, ∑ kx ∈ Finset.range 5,
            max b 0 * (gaussKernel ky kx : α) := by
              apply Finset.sum_le_sum
              intro ky _
              apply Finset.sum_le_sum
              intro kx _
              exact mul_le_mul_of_nonneg_right (htap ky kx).2 (by positivity)
        _ = max b 0 * 256 := by
              simp only [← Finset.mul_sum]
              rw [gaussKernel_sum]
  · rw [if_neg hint]
    exact ⟨min_le_right _ _, le_max_right _ _⟩

theorem c6_blur_range_witness :
    min (2 : ℚ) 0 ≤ get2 (gaussianBlur (List.replicate 5 (List.replicate 5 (2 : ℚ)))) 0 0 ∧
    get2 (gaussianBlur (List.replicate 5 (List.replicate 5 (2 : ℚ)))) 0 0 ≤ max (2 : ℚ) 0 := by
  have hkey := c6_blur_range (List.replicate 5 (List.replicate 5 (2 : ℚ))) 2 2
    (by decide) (by decide)
    (fun v hv => by
      simp only [List.mem_flatten, List.mem_replicate] at hv
      obtain ⟨row, ⟨_, rfl⟩, hv⟩ := hv
      rcases List.eq_of_mem_replicate hv with rfl
      exact le_refl _)
    (fun v hv => by
      simp only [List.mem_flatten, List.mem_replicate] at hv
      obtain ⟨row, ⟨_, rfl⟩, hv⟩ := hv
      rcases List.eq_of_mem_replicate hv with rfl
      exact le_refl _)
  refine hkey _ ?_
  have h1 : get2 (gaussianBlur (List.replicate 5 (List.replicate 5 (2 : ℚ)))) 0 0 =
      (if 2 ≤ 0 ∧ 0 + 2 < (List.replicate 5 (List.replicate 5 (2 : ℚ))).length ∧ 2 ≤ 0 ∧
          0 + 2 < ((List.replicate 5 (List.replicate 5 (2 : ℚ))).headD []).length then
        (∑ ky ∈ Finset.range 5, ∑ kx ∈ Finset.range 5,
          get2 (List.replicate 5 (List.replicate 5 (2 : ℚ))) (0 + ky - 2) (0 + kx - 2) *
            (gaussKernel ky kx : ℚ)) / 256
      else 0) := by
    rw [gaussianBlur, get2_mkField, if_pos (by decide)]
  rw [h1]
  exact mem_flatten_mkField (by decide) (by decide)

/-- C6 counterexample: for the 5×5 all-ones field the smoothed field
contains the value 0 (the zeroed border), strictly below the input
minimum 1, so the smoothed range is wider than the input range. -/
theorem c6_counterexample :
    (0 : ℚ) ∈ (gaussianBlur (List.replicate 5 (List.replicate 5 (1 : ℚ)))).flatten ∧
    (∀ v ∈ (List.replicate 5 (List.replicate 5 (1 : ℚ))).flatten, 1 ≤ v) ∧
    ¬ ((1 : ℚ) ≤ 0) := by
  refine ⟨?_, ?_, by norm_num⟩
  · have h0 : (0 : ℚ) = (if 2 ≤ 0 ∧ 0 + 2 < (List.replicate 5 (List.replicate 5 (1 : ℚ))).length ∧
        2 ≤ 0 ∧ 0 + 2 < ((List.replicate 5 (List.replicate 5 (1 : ℚ))).headD []).length then
          (∑ ky ∈ Finset.range 5, ∑ kx ∈ Finset.range 5,
            get2 (List.replicate 5 (List.replicate 5 (1 : ℚ))) (0 + ky - 2) (0 + kx - 2) *
              (gaussKernel ky kx : ℚ)) / 256
        else 0) := by
      rw [if_neg (by omega)]
    rw [h0]
    exact mem_flatten_mkField (by decide) (by decide)
  · intro v hv
    simp only [List.mem_flatten, List.mem_replicate] at hv
    obtain ⟨row, ⟨_, rfl⟩, hv⟩ := hv
    rcases List.eq_of_mem_replicate hv with rfl
    exact le_refl _

/-- C9: the smoothing filter returns a field of the input's dimensions in
which every position outside the 2-pixel-inset interior is exactly 0 and
every interior position is the normalized 5×5 weighted average of the
input; consequently the smoothed field contains the value 0. -/
theorem c9_blur_border {α : Type} [LinearOrderedField α] (f : List (List α))
    (h5 : 5 ≤ f.length) (w5 : 5 ≤ (f.headD []).length) :
    (gaussianBlur f).length = f.length ∧
    (∀ y x, y < f.length → x < (f.headD []).length →
      ¬ (2 ≤ y ∧ y + 2 < f.length ∧ 2 ≤ x ∧ x + 2 < (f.headD []).length) →
      get2 (gaussianBlur f) y x = 0) ∧
    (∀ y x, 2 ≤ y → y + 2 < f.length → 2 ≤ x → x + 2 < (f.headD []).length →
      get2 (gaussianBlur f) y x =
        (∑ ky ∈ Finset.range 5, ∑ kx ∈ Finset.range 5,
          get2 f (y + ky - 2) (x + kx - 2) * (gaussKernel ky kx : α)) / 256) ∧
    (0 : α) ∈ (gaussianBlur f).flatten := by
  refine ⟨mkField_length _ _ _, ?_, ?_, ?_⟩
  · intro y x hy hx hnot
    rw [gaussianBlur, get2_mkField, if_pos ⟨hy, hx⟩, if_neg hnot]
  · intro y x h2y hy2 h2x hx2
    rw [gaussianBlur, get2_mkField, if_pos ⟨by omega, by omega⟩,
      if_pos ⟨h2y, hy2, h2x, hx2⟩]
  · have h0 : (0 : α) = (if 2 ≤ 0 ∧ 0 + 2 < f.length ∧ 2 ≤ 0 ∧
        0 + 2 < (f.headD []).length then
          (∑ ky ∈ Finset.range 5, ∑ kx ∈ Finset.range 5,
            get2 f (0 + ky - 2) (0 + kx - 2) * (gaussKernel ky kx : α)) / 256
        else 0) := by
      rw [if_neg (by omega)]
    rw [gaussianBlur, h0]
    exact mem_flatten_mkField (by omega) (by omega)

theorem c9_blur_border_witness :
    (gaussianBlur (List.replicate 5 (List.replicate 5 (1 : ℚ)))).length =
      (List.replicate 5 (List.replicate 5 (1 : ℚ))).length ∧
    get2 (gaussianBlur (List.replicate 5 (List.replicate 5 (1 : ℚ)))) 0 0 = 0 ∧
    get2 (gaussianBlur (List.replicate 5 (List.replicate 5 (1 : ℚ)))) 2 2 =
      (∑ ky ∈ Finset.range 5, ∑ kx ∈ Finset.range 5,
        get2 (List.replicate 5 (List.replicate 5 (1 : ℚ))) (2 + ky - 2) (2 + kx - 2) *
          (gaussKernel ky kx : ℚ)) / 256 ∧
    (0 : ℚ) ∈ (gaussianBlur (List.replicate 5 (List.replicate 5 (1 : ℚ)))).flatten := by
  have h := c9_blur_border (List.replicate 5 (List.replicate 5 (1 : ℚ))) (by decide) (by decide)
  exact ⟨h.1, h.2.1 0 0 (by decide) (by decide) (by decide),
    h.2.2.1 2 2 (by decide) (by decide) (by decide) (by decide), h.2.2.2⟩

theorem mkField_getD_length {α : Type} (h w : ℕ) (F : ℕ → ℕ → α) (y : ℕ) (hy : y < h) :
    ((mkField h w F).getD y []).length = w := by
  unfold mkField
  rw [List.getD_eq_getElem _ _ (by simpa using hy), List.getElem_map]
  simp

theorem foldl_max_le_init {α : Type} [LinearOrder α] (l : List α) (a : α) :
    a ≤ l.foldl max a := by
  induction l generalizing a with
  | nil => simp
  | cons x t ih => exact le_trans (le_max_left a x) (ih (max a x))

theorem le_foldl_max_of_mem {α : Type} [LinearOrder α] {l : List α} {v : α}
    (hv : v ∈ l) (a : α) : v ≤ l.foldl max a := by
  induction l generalizing a with
  | nil => cases hv
  | cons x t ih =>
    rcases List.mem_cons.mp hv with rfl | hm
    · exact le_trans (le_max_right a v) (foldl_max_le_init t (max a v))
    · exact ih hm (max a x)

theorem init_le_maxOfField {α : Type} [LinearOrder α] (f : List (List α)) (init : α) :
    init ≤ maxOfField f init := by
  induction f generalizing init with
  | nil => simp [maxOfField]
  | cons r t ih =>
    unfold maxOfField at *
    simp only [List.foldl_cons]
    exact le_trans (foldl_max_le_init r init) (ih (r.foldl max init))

theorem le_maxOfField_of_mem {α : Type} [LinearOrder α] {f : List (List α)}
    {row : List α} {v : α} (hrow : row ∈ f) (hv : v ∈ row) (init : α) :
    v ≤ maxOfField f init := by
  induction f generalizing init with
  | nil => cases hrow
  | cons r t ih =>
    unfold maxOfField at *
    simp only [List.foldl_cons]
    rcases List.mem_cons.mp hrow with rfl | hm
    · exact le_trans (le_foldl_max_of_mem hv init) (init_le_maxOfField t _)
    · exact ih hm _

theorem sobelXk_sum : (∑ ky ∈ Finset.range 3, ∑ kx ∈ Finset.range 3, sobelXk ky kx) = 0 := by
  decide

theorem sobelYk_sum : (∑ ky ∈ Finset.range 3, ∑ kx ∈ Finset.range 3, sobelYk ky kx) = 0 := by
  decide

theorem foldl_jsAdd_zero {ι : Type} {l : List ι} {F : ι → Option ℝ}
    (hF : ∀ c ∈ l, F c = some 0) (s : ℝ) :
    l.foldl (fun a c => jsAdd a (F c)) (some s) = some s := by
  induction l generalizing s with
  | nil => rfl
  | cons c t ih =>
    rw [List.foldl_cons, hF c (List.mem_cons_self c t)]
    have h1 : jsAdd (some s) (some 0) = some s := by
      simp [jsAdd]
    rw [h1]
    exact ih (fun d hd => hF d (List.mem_cons_of_mem _ hd)) s

theorem gray_uniform_val {img : Img}
    (hpx : ∀ a b, a < img.width → b < img.height → img.pixel a b = (128, 128, 128))
    {y x : ℕ} (hy : y < img.height) (hx : x < img.width) :
    get2 (grayscaleField img) y x = (128 : ℝ) := by
  rw [grayscaleField, get2_mkField, if_pos ⟨hy, hx⟩, hpx x y hx hy, lum_gray]
  norm_num

theorem grayscaleField_length (img : Img) : (grayscaleField img).length = img.height :=
  mkField_length _ _ _

theorem grayscaleField_headD_length (img : Img) (hh : 0 < img.height) :
    ((grayscaleField img).headD []).length = img.width :=
  mkField_headD_length _ _ _ hh

theorem blur_uniform_val {img : Img}
    (hpx : ∀ a b, a < img.width → b < img.height → img.pixel a b = (128, 128, 128))
    (hh : 5 ≤ img.height) {y x : ℕ} (hy : y < img.height) (hx : x < img.width) :
    get2 (gaussianBlur (grayscaleField img)) y x =
      if 2 ≤ y ∧ y + 2 < img.height ∧ 2 ≤ x ∧ x + 2 < img.width then (128 : ℝ) else 0 := by
  rw [gaussianBlur, grayscaleField_length, grayscaleField_headD_length img (by omega),
    get2_mkField, if_pos ⟨hy, hx⟩]
  by_cases hint : 2 ≤ y ∧ y + 2 < img.height ∧ 2 ≤ x ∧ x + 2 < img.width
  · rw [if_pos hint, if_pos hint]
    have htap : ∀ ky ∈ Finset.range 5, ∀ kx ∈ Finset.range 5,
        get2 (grayscaleField img) (y + ky - 2) (x + kx - 2) * (gaussKernel ky kx : ℝ) =
          128 * (gaussKernel ky kx : ℝ) := by
      intro ky hky kx hkx
      rw [gray_uniform_val hpx (by simp at hky; omega) (by simp at hkx; omega)]
    rw [Finset.sum_congr rfl (fun ky hky =>
      Finset.sum_congr rfl (fun kx hkx => htap ky hky kx hkx))]
    simp only [← Finset.mul_sum]
    rw [gaussKernel_sum]
    norm_num
  · rw [if_neg hint, if_neg hint]

theorem blurred_length {img : Img} (hh : 0 < img.height) :
    (gaussianBlur (grayscaleField img)).length = img.height := by
  rw [gaussianBlur, mkField_length, grayscaleField_length]

theorem blurred_headD_length {img : Img} (hh : 0 < img.height) :
    ((gaussianBlur (grayscaleField img)).headD []).length = img.width := by
  rw [gaussianBlur, grayscaleField_length, grayscaleField_headD_length img hh,
    mkField_headD_length _ _ _ hh]

theorem sobel_inner_zero {img : Img}
    (hpx : ∀ a b, a < img.width → b < img.height → img.pixel a b = (128, 128, 128))
    (hw : 5 ≤ img.width) (hh : 5 ≤ img.height) {y x : ℕ}
    (h3y : 3 ≤ y) (hy4 : y + 4 ≤ img.height) (h3x : 3 ≤ x) (hx4 : x + 4 ≤ img.width) :
    get2 (sobelMagField (gaussianBlur (grayscaleField img))) y x = 0 := by
  rw [sobelMagField, blurred_length (by omega), blurred_headD_length (by omega),
    get2_mkField, if_pos ⟨by omega, by omega⟩, if_pos ⟨by omega, by omega, by omega, by omega⟩]
  have htap : ∀ ky kx : ℕ, ky < 3 → kx < 3 →
      get2 (gaussianBlur (grayscaleField img)) (y + ky - 1) (x + kx - 1) = (128 : ℝ) := by
    intro ky kx hky hkx
    rw [blur_uniform_val hpx hh (by omega) (by omega), if_pos (by constructor <;> omega)]
  have hgx : sobelGx (gaussianBlur (grayscaleField img)) y x = 0 := by
    unfold sobelGx
    rw [Finset.sum_congr rfl (fun ky hky => Finset.sum_congr rfl (fun kx hkx => by
      rw [htap ky kx (List.mem_range.mp (by simpa using hky)) (List.mem_range.mp (by simpa using hkx))]))]
    simp only [← Finset.mul_sum]
    have : (∑ ky ∈ Finset.range 3, ∑ kx ∈ Finset.range 3, (sobelXk ky kx : ℝ)) = 0 := by
      exact_mod_cast congrArg (fun z : ℤ => (z : ℝ)) sobelXk_sum
    rw [this, mul_zero]
  have hgy : sobelGy (gaussianBlur (grayscaleField img)) y x = 0 := by
    unfold sobelGy
    rw [Finset.sum_congr rfl (fun ky hky => Finset.sum_congr rfl (fun kx hkx => by
      rw [htap ky kx (List.mem_range.mp (by simpa using hky)) (List.mem_range.mp (by simpa using hkx))]))]
    simp only [← Finset.mul_sum]
    have : (∑ ky ∈ Finset.range 3, ∑ kx ∈ Finset.range 3, (sobelYk ky kx : ℝ)) = 0 := by
      exact_mod_cast congrArg (fun z : ℤ => (z : ℝ)) sobelYk_sum
    rw [this, mul_zero]
  rw [hgx, hgy]
  simp

theorem sobel_12_large {img : Img}
    (hpx : ∀ a b, a < img.width → b < img.height → img.pixel a b = (128, 128, 128))
    (hw : 5 ≤ img.width) (hh : 5 ≤ img.height) :
    (256 : ℝ) ≤ get2 (sobelMagField (gaussianBlur (grayscaleField img))) 1 2 := by
  rw [sobelMagField, blurred_length (by omega), blurred_headD_length (by omega),
    get2_mkField, if_pos ⟨by omega, by omega⟩, if_pos ⟨by omega, by omega, by omega, by omega⟩]
  set t : ℝ := get2 (gaussianBlur (grayscaleField img)) 2 3 with hts
  have htval : t = if 2 ≤ 2 ∧ 2 + 2 < img.height ∧ 2 ≤ 3 ∧ 3 + 2 < img.width
      then (128 : ℝ) else 0 := blur_uniform_val hpx hh (by omega) (by omega)
  have ht0 : 0 ≤ t := by
    rw [htval]
    split <;> norm_num
  have hrow01 : ∀ x2 : ℕ, x2 < img.width →
      get2 (gaussianBlur (grayscaleField img)) 0 x2 = 0 := by
    intro x2 hx2
    rw [blur_uniform_val hpx hh (by omega) hx2, if_neg (by omega)]
  have hrow1 : ∀ x2 : ℕ, x2 < img.width →
      get2 (gaussianBlur (grayscaleField img)) 1 x2 = 0 := by
    intro x2 hx2
    rw [blur_uniform_val hpx hh (by omega) hx2, if_neg (by omega)]
  have h21 : get2 (gaussianBlur (grayscaleField img)) 2 1 = 0 := by
    rw [blur_uniform_val hpx hh (by omega) (by omega), if_neg (by omega)]
  have h22 : get2 (gaussianBlur (grayscaleField img)) 2 2 = (128 : ℝ) := by
    rw [blur_uniform_val hpx hh (by omega) (by omega), if_pos (by omega)]
  have hgx : sobelGx (gaussianBlur (grayscaleField img)) 1 2 = t := by
    unfold sobelGx
    simp only [Finset.sum_range_succ, Finset.sum_range_zero]
    norm_num [hrow01 1 (by omega), hrow01 2 (by omega), hrow01 3 (by omega),
      hrow1 1 (by omega), hrow1 2 (by omega), hrow1 3 (by omega), h21, h22, ← hts, sobelXk]
  have hgy : sobelGy (gaussianBlur (grayscaleField img)) 1 2 = 256 + t := by
    unfold sobelGy
    simp only [Finset.sum_range_succ, Finset.sum_range_zero]
    norm_num [hrow01 1 (by omega), hrow01 2 (by omega), hrow01 3 (by omega),
      hrow1 1 (by omega), hrow1 2 (by omega), hrow1 3 (by omega), h21, h22, ← hts, sobelYk]
  rw [hgx, hgy]
  have h1 : (256 + t) ^ 2 ≤ t ^ 2 + (256 + t) ^ 2 := by nlinarith
  calc (256 : ℝ) ≤ 256 + t := by linarith
    _ = Real.sqrt ((256 + t) ^ 2) := (Real.sqrt_sq (by linarith)).symm
    _ ≤ Real.sqrt (t ^ 2 + (256 + t) ^ 2) := Real.sqrt_le_sqrt h1

theorem get2opt_normalizeField {f : List (List ℝ)} {y x : ℕ}
    (hy : y < f.length) (hx : x < (f.getD y []).length) :
    get2opt (normalizeField f) y x =
      (jsDiv (get2 f y x) (maxOfField f 0)).map (fun q => q * 255) := by
  unfold get2opt normalizeField get2
  have hrow : f.getD y [] = f[y] := List.getD_eq_getElem _ _ hy
  rw [hrow] at hx
  have houter : (f.map (fun row => row.map (fun v =>
        (jsDiv v (maxOfField f 0)).map (fun q => q * 255)))).getD y []
      = (f[y]).map (fun v => (jsDiv v (maxOfField f 0)).map (fun q => q * 255)) := by
    rw [List.getD_eq_getElem _ _ (by simpa using hy), List.getElem_map]
  rw [houter, List.getD_eq_getElem _ _ (by simpa using hx), List.getElem_map,
    hrow, List.getD_eq_getElem _ _ hx]

/-- The maximum magnitude of the uniform-gray edge field is at least 256:
the zeroed blur border produces a genuine gradient at position (1,2). -/
theorem maxMag_large {img : Img}
    (hpx : ∀ a b, a < img.width → b < img.height → img.pixel a b = (128, 128, 128))
    (hw : 5 ≤ img.width) (hh : 5 ≤ img.height) :
    (256 : ℝ) ≤ maxOfField (sobelMagField (gaussianBlur (grayscaleField img))) 0 := by
  have h12 := sobel_12_large hpx hw hh
  rcases get2_mem_or_zero (sobelMagField (gaussianBlur (grayscaleField img))) 1 2 with hm | hz
  · rcases List.mem_flatten.mp hm with ⟨row, hrow, hv⟩
    exact le_trans h12 (le_maxOfField_of_mem hrow hv 0)
  · rw [hz] at h12
    norm_num at h12

/-- Far-interior entries of the uniform-gray normalized edge field are
exactly `some 0`. -/
theorem edgeField_inner_zero {img : Img}
    (hpx : ∀ a b, a < img.width → b < img.height → img.pixel a b = (128, 128, 128))
    (hw : 5 ≤ img.width) (hh : 5 ≤ img.height) {y x : ℕ}
    (h3y : 3 ≤ y) (hy4 : y + 4 ≤ img.height) (h3x : 3 ≤ x) (hx4 : x + 4 ≤ img.width) :
    get2opt (edgeFieldOf img) y x = some 0 := by
  have hmax := maxMag_large hpx hw hh
  have hmaxne : maxOfField (sobelMagField (gaussianBlur (grayscaleField img))) 0 ≠ 0 := by
    intro hc
    rw [hc] at hmax
    norm_num at hmax
  unfold edgeFieldOf cannyEdgeDetection
  rw [get2opt_normalizeField (by rw [sobelMagField, mkField_length, blurred_length (by omega)]; omega)
    (by rw [sobelMagField]
        rw [blurred_length (by omega), blurred_headD_length (by omega)]
        rw [mkField_getD_length _ _ _ _ (by omega)]
        omega),
    sobel_inner_zero hpx hw hh h3y hy4 h3x hx4, jsDiv, if_neg hmaxne]
  simp

/-- The uniform-gray normalized edge field has a strictly positive entry
at position (1,2). -/
theorem edgeField_12_pos {img : Img}
    (hpx : ∀ a b, a < img.width → b < img.height → img.pixel a b = (128, 128, 128))
    (hw : 5 ≤ img.width) (hh : 5 ≤ img.height) :
    ∃ v : ℝ, 0 < v ∧ get2opt (edgeFieldOf img) 1 2 = some v := by
  have hmax := maxMag_large hpx hw hh
  have hmaxne : maxOfField (sobelMagField (gaussianBlur (grayscaleField img))) 0 ≠ 0 := by
    intro hc
    rw [hc] at hmax
    norm_num at hmax
  have h12 := sobel_12_large hpx hw hh
  unfold edgeFieldOf cannyEdgeDetection
  rw [get2opt_normalizeField (by rw [sobelMagField, mkField_length, blurred_length (by omega)]; omega)
    (by rw [sobelMagField]
        rw [blurred_length (by omega), blurred_headD_length (by omega)]
        rw [mkField_getD_length _ _ _ _ (by omega)]
        omega),
    jsDiv, if_neg hmaxne]
  refine ⟨get2 (sobelMagField (gaussianBlur (grayscaleField img))) 1 2 /
    maxOfField (sobelMagField (gaussianBlur (grayscaleField img))) 0 * 255, ?_, rfl⟩
  have hmaxpos : (0 : ℝ) < maxOfField (sobelMagField (gaussianBlur (grayscaleField img))) 0 := by
    linarith
  positivity

/-- C4 counterexample: for the 5×5 uniform mid-gray raster the computed
edge-strength field is not uniformly zero: the entry at row 1, column 2 is
a strictly positive value (a border artifact of the zero-padded blur). -/
theorem c4_counterexample :
    get2opt (edgeFieldOf (uniformImg 5 5 (128, 128, 128))) 1 2 ≠ some 0 := by
  obtain ⟨v, hv, heq⟩ := @edgeField_12_pos (uniformImg 5 5 (128, 128, 128))
    (fun a b ha hb => uniformImg_pixel (by simpa [uniformImg] using ha)
      (by simpa [uniformImg] using hb))
    (by decide) (by decide)
  rw [heq]
  intro hc
  rw [Option.some_inj] at hc
  exact absurd hc (by linarith)

/-- C4 (amended): for a uniform mid-gray raster no cell is suppressed
(`isExtreme` is false and the mean luminance is 128), but the edge field is
not uniformly zero: the smoothing filter's zeroed border produces nonzero
gradient magnitudes near the raster border (position (1,2) in particular),
while every entry at distance ≥ 3 from the border is `some 0`; every cell
whose sampled block stays at distance ≥ 3 from the border therefore gets
the glyph at index `floor(((0·0.7 + 128·0.3))/255 · (len−3)) + 1`, the
index derived from score 128·0.3/255. -/
theorem c4_uniform_gray (cs : List Char) (img : Img) (outW outH : ℕ)
    (hpx : ∀ a b, a < img.width → b < img.height → img.pixel a b = (128, 128, 128))
    (hw : 5 ≤ img.width) (hh : 5 ≤ img.height)
    (hW : 0 < outW) (hH : 0 < outH) (hWle : outW ≤ img.width) (hHle : outH ≤ img.height) :
    (∀ x y, x < outW → y < outH →
      cellExtreme img outW outH x y = false ∧ (cellBright img outW outH x y : ℝ) = 128) ∧
    (∃ v : ℝ, 0 < v ∧ get2opt (edgeFieldOf img) 1 2 = some v) ∧
    (∀ y x, 3 ≤ y → y + 4 ≤ img.height → 3 ≤ x → x + 4 ≤ img.width →
      get2opt (edgeFieldOf img) y x = some 0) ∧
    (∀ x y, x < outW → y < outH →
      (∀ c ∈ sampleCoords img.width img.height (stepOf img.width outW)
          (stepOf img.height outH) (x * stepOf img.width outW) (y * stepOf img.height outH),
        3 ≤ c.2 ∧ c.2 + 4 ≤ img.height ∧ 3 ≤ c.1 ∧ c.1 + 4 ≤ img.width) →
      cellGlyphEdge cs img outW outH x y =
        strIndex cs (charIndexEdge cs.length (0 : ℝ) 128)) := by
  have hcellfacts : ∀ x y, x < outW → y < outH →
      cellExtreme img outW outH x y = false ∧ (cellBright img outW outH x y : ℝ) = 128 := by
    intro x y hx hy
    have hcount := cellCount_pos img outW outH x y hW hH hWle hHle hx hy
    have hall : ∀ p ∈ cellBlock img outW outH x y, p = (128, 128, 128) := by
      intro p hp
      rcases mem_cellBlock hp with ⟨a, b, ha, hb, rfl⟩
      exact hpx a b ha hb
    exact ⟨cellExtreme_const_false hcount hall (by omega) (by omega),
      cellBright_const hcount hall⟩
  refine ⟨hcellfacts, edgeField_12_pos hpx hw hh,
    fun y x h1 h2 h3 h4 => edgeField_inner_zero hpx hw hh h1 h2 h3 h4, ?_⟩
  intro x y hx hy hfar
  obtain ⟨hext, hbr⟩ := hcellfacts x y hx hy
  have hedge : cellEdge img outW outH x y = some 0 := by
    unfold cellEdge
    have hraw : (sampleCoords img.width img.height (stepOf img.width outW)
        (stepOf img.height outH) (x * stepOf img.width outW)
        (y * stepOf img.height outH)).foldl
        (fun a c => jsAdd a (get2opt (edgeFieldOf img) c.2 c.1)) (some 0) = some 0 := by
      apply foldl_jsAdd_zero
      intro c hc
      obtain ⟨hc1, hc2, hc3, hc4⟩ := hfar c hc
      exact edgeField_inner_zero hpx hw hh hc1 hc2 hc3 hc4
    rw [hraw, if_pos (cellCount_pos img outW outH x y hW hH hWle hHle hx hy)]
    simp
  rw [cellGlyphEdge, if_neg (by rw [hext, hbr]; push_neg; norm_num), hedge, hbr]
  rfl

theorem c4_uniform_gray_witness :
    cellExtreme (uniformImg 16 16 (128, 128, 128)) 4 4 1 1 = false ∧
    (cellBright (uniformImg 16 16 (128, 128, 128)) 4 4 1 1 : ℝ) = 128 ∧
    get2opt (edgeFieldOf (uniformImg 16 16 (128, 128, 128))) 5 5 = some 0 ∧
    cellGlyphEdge ['a','b','c'] (uniformImg 16 16 (128, 128, 128)) 4 4 1 1 =
      strIndex ['a','b','c'] (charIndexEdge (['a','b','c'] : List Char).length (0 : ℝ) 128) := by
  have h := c4_uniform_gray ['a','b','c'] (uniformImg 16 16 (128, 128, 128)) 4 4
    (fun a b ha hb => uniformImg_pixel (by simpa [uniformImg] using ha)
      (by simpa [uniformImg] using hb))
    (by decide) (by decide) (by decide) (by decide) (by decide) (by decide)
  exact ⟨(h.1 1 1 (by norm_num) (by norm_num)).1, (h.1 1 1 (by norm_num) (by norm_num)).2,
    h.2.2.1 5 5 (by decide) (by decide) (by decide) (by decide),
    h.2.2.2 1 1 (by norm_num) (by norm_num) (by decide)⟩
